import Mathlib

/-!
Shallow embedding of the AtomOS workflow compiler and executor
(package `workflows`: `api.go`, `api_helpers.go`, `types.go`, and the
subprocess runners `runBinaryWithPipe` / `runBinaryWithString`).

Modelling conventions, stated once:

* Go maps with unspecified iteration order (the `dominikbraun/graph`
  adjacency map, the vertex map) are modelled as insertion-ordered
  association lists; every refuted statement below is refuted by a
  counterexample that is robust to the iteration order, and every
  order-sensitive confirmed statement is order-insensitive in content
  (set membership, emptiness, counts).
* External effects are an explicit `World` oracle: the parsed manifest
  for a path, the package-manager `Install` call, the file system, and
  the result (exit status, stdout, stderr) of running a binary on a
  given stdin.  Spawned subprocesses are recorded in a trace so that
  "which binaries ran, with which arguments and stdin" is observable.
* A Go runtime panic (nil-interface method call, nil-pointer field
  access) is modelled as the `GoResult.crash` outcome.
* The graph is created with `graph.Directed()` and `graph.Acyclic()`;
  in `dominikbraun/graph` the `Acyclic` trait alone does not enable the
  cycle check on `AddEdge` (only `PreventCycles` does), so `AddEdge`
  rejects an edge only when an endpoint vertex is missing or the same
  ordered pair already has an edge.  The embedding mirrors exactly that.
-/

namespace AtomOS

/-- `Block` from `types.go`: a manifest block declaration. -/
structure Block where
  name : String
  version : String
  github : String
  force : Bool
deriving DecidableEq

/-- `Connection` from `types.go` (the revision with `Source`):
producer block/entry, output label, optional input label, optional
source path. -/
structure Connection where
  fromBlock : String
  fromEntry : String
  output : String
  input : String
  source : String
deriving DecidableEq

/-- `RawWorkflow` from `types.go`. -/
structure RawWorkflow where
  name : String
  version : String
  description : String
  blocks : List Block
  connections : List Connection
deriving DecidableEq

/-- The four edge attributes `buildGraph` sets via `graph.EdgeAttribute`. -/
structure EdgeProps where
  fromEntry : String
  output : String
  input : String
  source : String
deriving DecidableEq

/-- A directed edge of the workflow graph with its attributes. -/
structure Edge where
  src : String
  tgt : String
  props : EdgeProps
deriving DecidableEq

/-- The `dominikbraun/graph` directed graph as used by this code:
vertices are `*Block` hashed by name, edges carry string attributes.
Both stores keep insertion order (Go iterates them in unspecified
order; see the conventions above). -/
structure Graph where
  vertices : List Block
  edges : List Edge
deriving DecidableEq

/-- Names of the graph's vertices. -/
def Graph.vertexNames (g : Graph) : List String :=
  g.vertices.map (fun b => b.name)

/-- `g.AddVertex(&block)`: fails (ignored by the caller) when a vertex
with the same hash already exists; otherwise stores the block. -/
def addVertex (g : Graph) (b : Block) : Graph :=
  if g.vertices.any (fun v => v.name = b.name) then g
  else { g with vertices := g.vertices ++ [b] }

/-- Whether `g` has an edge for the ordered pair `(src, tgt)`. -/
def Graph.edgeExists (g : Graph) (src tgt : String) : Prop :=
  ∃ e ∈ g.edges, e.src = src ∧ e.tgt = tgt

instance (g : Graph) (s t : String) : Decidable (g.edgeExists s t) := by
  unfold Graph.edgeExists; infer_instance

/-- `g.AddEdge(src, tgt, attrs...)`: errors (ignored by the caller) when
either endpoint vertex is missing or the ordered pair already has an
edge; the `Acyclic` trait performs no cycle check (only `PreventCycles`
would), so cycle-creating edges and self-loops are stored. -/
def addEdge (g : Graph) (src tgt : String) (props : EdgeProps) : Graph :=
  if ¬ (src ∈ g.vertexNames) then g
  else if ¬ (tgt ∈ g.vertexNames) then g
  else if g.edgeExists src tgt then g
  else { g with edges := g.edges ++ [⟨src, tgt, props⟩] }

/-- The body of `buildGraph`'s inner loop: skip when the consumer
connection has no input, when the producer has no output, or when the
labels differ; otherwise add the matched edge with the producer's
entry/output, the consumer's input, and the producer's source path. -/
def addMatchedEdge (g : Graph) (src dst : Connection) : Graph :=
  if dst.input = "" then g
  else if src.output = "" then g
  else if src.output ≠ dst.input then g
  else addEdge g src.fromBlock dst.fromBlock
    ⟨src.fromEntry, src.output, dst.input, src.source⟩

/-- `buildGraph` (`api_helpers.go`): one vertex per block, then for
every ordered pair of connections whose output label equals the
(non-empty) input label, an edge producer-block → consumer-block. -/
def buildGraph (rwf : RawWorkflow) : Graph :=
  let g := rwf.blocks.foldl addVertex ⟨[], []⟩
  rwf.connections.foldl
    (fun g src => rwf.connections.foldl (fun g dst => addMatchedEdge g src dst) g)
    g

/-- Whether vertex `v` has an incoming edge, as computed by
`findRootNode`'s first pass over the adjacency map. -/
def hasIncoming (g : Graph) (v : String) : Prop :=
  ∃ e ∈ g.edges, e.tgt = v

instance (g : Graph) (v : String) : Decidable (hasIncoming g v) := by
  unfold hasIncoming; infer_instance

/-- `findRootNode`: scan the adjacency map's keys (all vertices) and
return the first vertex with no incoming edge, or `""` when every
vertex has one (Go's map order is unspecified; insertion order here). -/
def findRootNode (g : Graph) : String :=
  match g.vertices.find? (fun b => ¬ hasIncoming g b.name) with
  | some b => b.name
  | none => ""

/-- `getIncoming`: walk the adjacency map and collect every edge whose
target is the current node (only the count of this list is consumed by
`executeBlock`). -/
def getIncoming (g : Graph) (current : String) : List Edge :=
  g.vertices.foldl
    (fun acc b =>
      match g.edges.find? (fun e => e.src = b.name ∧ e.tgt = current) with
      | some e => acc ++ [e]
      | none => acc)
    []

/-- `getOutGoing`: the adjacency map's row for the current node. -/
def getOutGoing (g : Graph) (current : String) : List Edge :=
  g.edges.filter (fun e => e.src = current)

/-- Association-list lookup, modelling a Go map read (`m[k]`, with the
caller handling the missing-key zero value). -/
def lookupAssoc {α : Type} (m : List (String × α)) (k : String) : Option α :=
  (m.find? (fun p => p.1 = k)).map (fun p => p.2)

/-- Association-list update, modelling a Go map write `m[k] = v`. -/
def setAssoc {α : Type} (m : List (String × α)) (k : String) (v : α) :
    List (String × α) :=
  if (m.find? (fun p => p.1 = k)).isSome
  then m.map (fun p => if p.1 = k then (k, v) else p)
  else m ++ [(k, v)]

/-- `packagemanager.InstallRequest`. -/
structure InstallRequest where
  repo : String
  version : String
  force : Bool
deriving DecidableEq

/-- `packagemanager.BlockMetadata`, restricted to the fields the
workflow core reads (`BinaryPath`; the entries map and version are
never consulted by the cited code). -/
structure BlockMetadata where
  name : String
  version : String
  binaryPath : String
deriving DecidableEq

/-- Outcome of running a binary once: exit status flag plus the
captured stdout and stderr (`cmd.Run` with both buffers attached).
A spawn failure is modelled as a failing run with empty stderr. -/
structure ExecResult where
  exitOk : Bool
  stdout : String
  stderr : String
deriving DecidableEq

/-- The external world: manifest parsing for a path (`os.ReadFile` +
YAML decode), the package manager's `Install`, the file system seen by
`os.Open`, and the behaviour of each binary on a given stdin. -/
structure World where
  manifests : String → Except String RawWorkflow
  install : InstallRequest → Except String BlockMetadata
  files : String → Option String
  run : String → String → ExecResult

/-- One recorded subprocess creation: `exec.Command(binary, args...)`
with the text piped to its stdin. -/
structure SpawnRec where
  binary : String
  args : List String
  stdin : String
deriving DecidableEq

/-- Mutable state threaded through one `RunWorkFlow` call: the
manager's result store plus the observational trace of subprocesses
spawned.  (The BFS `visited` set is a local of `RunWorkFlow` and is
carried separately by `bfs` below, as in the Go code.) -/
structure ExecState where
  results : List (String × String)
  spawns : List SpawnRec
deriving DecidableEq

/-- A Go call outcome: either a runtime panic or a normal value. -/
inductive GoResult (α : Type) where
  | crash : GoResult α
  | ok : α → GoResult α
deriving DecidableEq

/-- `runBinaryWithPipe` (the two-argument revision): open the file at
`filePath`, spawn `exec.Command(binary)` — no arguments — with the file
as stdin; non-zero exit yields an error carrying the captured stderr. -/
def runBinaryWithPipe (w : World) (st : ExecState) (binary filePath : String) :
    ExecState × Except String String :=
  match w.files filePath with
  | none => (st, .error ("failed to open file: " ++ filePath))
  | some content =>
    let r := w.run binary content
    let st' := { st with spawns := st.spawns ++ [⟨binary, [], content⟩] }
    if r.exitOk then (st', .ok r.stdout)
    else (st', .error ("binary failed, stderr: " ++ r.stderr))

/-- `runBinaryWithString` (the two-argument revision): spawn
`exec.Command(binary)` — no arguments — with the given string as stdin. -/
def runBinaryWithString (w : World) (st : ExecState) (binary input : String) :
    ExecState × Except String String :=
  let r := w.run binary input
  let st' := { st with spawns := st.spawns ++ [⟨binary, [], input⟩] }
  if r.exitOk then (st', .ok r.stdout)
  else (st', .error ("binary failed, stderr: " ++ r.stderr))

/-- `fromSource`: run the binary on the file at `inputPath` and, on
success, store the captured stdout under `outputpath`. -/
def fromSource (w : World) (st : ExecState) (binary outputpath inputPath : String) :
    ExecState × Except String Unit :=
  match runBinaryWithPipe w st binary inputPath with
  | (st', .error e) => (st', .error ("running binary failed: " ++ e))
  | (st', .ok out) =>
    ({ st' with results := setAssoc st'.results outputpath out }, .ok ())

/-- `fromNode`: read the result-store entry at `inputPath` (Go's map
read yields `""` when absent), run the binary on it, and on success
store the captured stdout under `outputpath`. -/
def fromNode (w : World) (st : ExecState) (binary inputPath outputpath : String) :
    ExecState × Except String Unit :=
  let input := (lookupAssoc st.results inputPath).getD ""
  match runBinaryWithString w st binary input with
  | (st', .error e) => (st', .error ("running binary with string failed: " ++ e))
  | (st', .ok out) =>
    ({ st' with results := setAssoc st'.results outputpath out }, .ok ())

/-- The body of `executeBlock`'s loop over outgoing edges: read the
`input`/`output` attributes and call `fromSource` (root case) or
`fromNode`, DISCARDING the returned error exactly as the Go code does. -/
def execOut (w : World) (shouldUseSource : Bool) (binary : String)
    (st : ExecState) (e : Edge) : ExecState :=
  let inputpath := e.props.input
  let outputpath := e.props.output
  if shouldUseSource then (fromSource w st binary outputpath inputpath).1
  else (fromNode w st binary inputpath outputpath).1

/-- `executeBlock`: dereference the metadata pointer (a missing entry is
a nil-pointer panic), decide root-ness by `len(incoming) <= 0`, process
each outgoing edge, and return `nil` unconditionally — the errors of
`fromSource` / `fromNode` are dropped. -/
def executeBlock (w : World) (st : ExecState) (metadata : Option BlockMetadata)
    (incon outcon : List Edge) : GoResult (ExecState × Except String Unit) :=
  match metadata with
  | none => .crash
  | some md =>
    let binary := md.binaryPath
    let shouldUseSource := decide (incon.length ≤ 0)
    .ok (outcon.foldl (execOut w shouldUseSource binary) st, .ok ())

theorem length_filter_notMem_le (l : List Block) (vis : List String) (c : String) :
    (l.filter (fun b => decide (b.name ∉ vis ++ [c]))).length ≤
      (l.filter (fun b => decide (b.name ∉ vis))).length := by
  induction l with
  | nil => simp
  | cons a l ih =>
    by_cases ha : a.name ∈ vis
    · have h1 : a.name ∈ vis ++ [c] := List.mem_append_left _ ha
      simp only [List.filter_cons, decide_eq_true_eq]
      rw [if_neg (by simp [h1]), if_neg (by simp [ha])]
      exact ih
    · by_cases hac : a.name = c
      · simp only [List.filter_cons, decide_eq_true_eq]
        rw [if_neg (by simp [hac]), if_pos (by simp [ha])]
        exact Nat.le_succ_of_le ih
      · have h1 : a.name ∉ vis ++ [c] := by simp [ha, hac]
        simp only [List.filter_cons, decide_eq_true_eq]
        rw [if_pos (by simp [h1]), if_pos (by simp [ha])]
        simpa using ih

theorem length_filter_notMem_lt (l : List Block) (vis : List String) (c : String)
    (hb : ∃ b ∈ l, b.name = c) (hc : c ∉ vis) :
    (l.filter (fun b => decide (b.name ∉ vis ++ [c]))).length <
      (l.filter (fun b => decide (b.name ∉ vis))).length := by
  induction l with
  | nil => exact absurd hb (by simp)
  | cons a l ih =>
    by_cases hac : a.name = c
    · have h1 : a.name ∈ vis ++ [c] := by simp [hac]
      simp only [List.filter_cons, decide_eq_true_eq]
      rw [if_neg (by simp [h1]), if_pos (by simp [hac ▸ hc])]
      exact Nat.lt_succ_of_le (length_filter_notMem_le l vis c)
    · have hb' : ∃ b ∈ l, b.name = c := by
        rcases hb with ⟨b, hbl, hbn⟩
        rcases List.mem_cons.mp hbl with h | h
        · exact absurd (h ▸ hbn) hac
        · exact ⟨b, h, hbn⟩
      by_cases ha : a.name ∈ vis
      · have h1 : a.name ∈ vis ++ [c] := List.mem_append_left _ ha
        simp only [List.filter_cons, decide_eq_true_eq]
        rw [if_neg (by simp [h1]), if_neg (by simp [ha])]
        exact ih hb'
      · have h1 : a.name ∉ vis ++ [c] := by simp [ha, hac]
        simp only [List.filter_cons, decide_eq_true_eq]
        rw [if_pos (by simp [h1]), if_pos (by simp [ha])]
        simpa using ih hb'

/-- The BFS loop of `RunWorkFlow` (`api.go`, lines 69–108).  The Go
code processes the queue level by level, but the inner loop always
takes `queue[0]` and appends to the same queue, so the dequeue sequence
is plain FIFO order; the level counter only affects printing.  Dequeue
a node; skip it when already visited; look its block up (an unknown
vertex aborts with an error); mark it visited; invoke the executor with
the node's incoming and outgoing edge sets; abort if the executor errs
(it never does in this revision); enqueue the not-yet-visited
successors.  Returns the final visit list (the vertices on which
`executeBlock` was invoked, in order), the final state, and the error. -/
def bfs (w : World) (meta : List (String × BlockMetadata)) (g : Graph)
    (queue visits : List String) (st : ExecState) :
    GoResult (List String × ExecState × Except String Unit) :=
  match queue with
  | [] => .ok (visits, st, .ok ())
  | c :: rest =>
    if c ∈ visits then bfs w meta g rest visits st
    else
      match hf : g.vertices.find? (fun b => b.name = c) with
      | none => .ok (visits, st, .error ("error getting block " ++ c))
      | some b =>
        match executeBlock w st (lookupAssoc meta b.name)
            (getIncoming g c) (getOutGoing g c) with
        | .crash => .crash
        | .ok (st2, .error e) =>
          .ok (visits ++ [c], st2,
            .error ("error executing block " ++ b.name ++ ": " ++ e))
        | .ok (st2, .ok _) =>
          let enq := ((getOutGoing g c).map (fun e => e.tgt)).filter
            (fun t => decide (t ∉ visits ++ [c]))
          bfs w meta g (rest ++ enq) (visits ++ [c]) st2
termination_by
  (g.vertices.filter (fun b => decide (b.name ∉ visits))).length *
    (1 + g.edges.length) + queue.length
decreasing_by
  · simp only [List.length_cons]
    omega
  · have hb : ∃ v ∈ g.vertices, v.name = c :=
      ⟨b, List.mem_of_find?_eq_some hf, by simpa using List.find?_some hf⟩
    have hlt := length_filter_notMem_lt g.vertices visits c hb (by assumption)
    have henq : (((getOutGoing g c).map (fun e => e.tgt)).filter
        (fun t => decide (t ∉ visits ++ [c]))).length ≤ g.edges.length := by
      calc (((getOutGoing g c).map (fun e => e.tgt)).filter
            (fun t => decide (t ∉ visits ++ [c]))).length
          ≤ ((getOutGoing g c).map (fun e => e.tgt)).length :=
            List.length_filter_le _ _
        _ = (getOutGoing g c).length := List.length_map _ _
        _ ≤ g.edges.length := List.length_filter_le _ _
    have hmul :
        (g.vertices.filter (fun b => decide (b.name ∉ visits ++ [c]))).length *
            (1 + g.edges.length) + (1 + g.edges.length) ≤
          (g.vertices.filter (fun b => decide (b.name ∉ visits))).length *
            (1 + g.edges.length) := by
      have h2 := Nat.mul_le_mul_right (1 + g.edges.length) hlt
      rw [Nat.succ_mul] at h2
      exact h2
    simp only [List.length_append, List.length_cons]
    omega

theorem bfs_nil (w : World) (meta : List (String × BlockMetadata)) (g : Graph)
    (visits : List String) (st : ExecState) :
    bfs w meta g [] visits st = .ok (visits, st, .ok ()) := by
  rw [bfs]

theorem bfs_cons_visited (w : World) (meta : List (String × BlockMetadata))
    (g : Graph) (c : String) (rest visits : List String) (st : ExecState)
    (h : c ∈ visits) :
    bfs w meta g (c :: rest) visits st = bfs w meta g rest visits st := by
  rw [bfs]
  simp [h]

theorem bfs_cons_stuck (w : World) (meta : List (String × BlockMetadata))
    (g : Graph) (c : String) (rest visits : List String) (st : ExecState)
    (h : c ∉ visits) (hf : g.vertices.find? (fun b => b.name = c) = none) :
    bfs w meta g (c :: rest) visits st =
      .ok (visits, st, .error ("error getting block " ++ c)) := by
  rw [bfs, if_neg h]
  split
  · rfl
  · next b' hfind => rw [hf] at hfind; cases hfind

theorem bfs_cons_step (w : World) (meta : List (String × BlockMetadata))
    (g : Graph) (c : String) (rest visits : List String) (st : ExecState)
    (b : Block) (h : c ∉ visits)
    (hf : g.vertices.find? (fun b => b.name = c) = some b) :
    bfs w meta g (c :: rest) visits st =
      match executeBlock w st (lookupAssoc meta b.name)
          (getIncoming g c) (getOutGoing g c) with
      | .crash => .crash
      | .ok (st2, .error e) =>
        .ok (visits ++ [c], st2,
          .error ("error executing block " ++ b.name ++ ": " ++ e))
      | .ok (st2, .ok _) =>
        bfs w meta g
          (rest ++ ((getOutGoing g c).map (fun e => e.tgt)).filter
            (fun t => decide (t ∉ visits ++ [c])))
          (visits ++ [c]) st2 := by
  rw [bfs, if_neg h]
  split
  · next hfind => rw [hf] at hfind; cases hfind
  · next b' hfind =>
    have hb : b' = b := by rw [hf] at hfind; cases hfind; rfl
    subst hb
    rfl

/-- Fuel-indexed evaluator for `bfs`: identical branch structure, one
unit of fuel per loop iteration, `none` on exhaustion.  It is
structurally recursive, hence kernel-reducible; `bfsF_sound` transfers
its runs to `bfs`. -/
def bfsF (w : World) (meta : List (String × BlockMetadata)) (g : Graph) :
    Nat → List String → List String → ExecState →
      Option (GoResult (List String × ExecState × Except String Unit))
  | 0, _, _, _ => none
  | fuel + 1, queue, visits, st =>
    match queue with
    | [] => some (.ok (visits, st, .ok ()))
    | c :: rest =>
      if c ∈ visits then bfsF w meta g fuel rest visits st
      else
        match g.vertices.find? (fun b => b.name = c) with
        | none => some (.ok (visits, st, .error ("error getting block " ++ c)))
        | some b =>
          match executeBlock w st (lookupAssoc meta b.name)
              (getIncoming g c) (getOutGoing g c) with
          | .crash => some .crash
          | .ok (st2, .error e) =>
            some (.ok (visits ++ [c], st2,
              .error ("error executing block " ++ b.name ++ ": " ++ e)))
          | .ok (st2, .ok _) =>
            bfsF w meta g fuel
              (rest ++ ((getOutGoing g c).map (fun e => e.tgt)).filter
                (fun t => decide (t ∉ visits ++ [c])))
              (visits ++ [c]) st2

/-- A terminating `bfsF` run computes exactly `bfs`. -/
theorem bfsF_sound (w : World) (meta : List (String × BlockMetadata)) (g : Graph) :
    ∀ (fuel : Nat) (queue visits : List String) (st : ExecState)
      (r : GoResult (List String × ExecState × Except String Unit)),
      bfsF w meta g fuel queue visits st = some r →
      bfs w meta g queue visits st = r := by
  intro fuel
  induction fuel with
  | zero => intro queue visits st r h; simp [bfsF] at h
  | succ fuel ih =>
    intro queue visits st r h
    match queue with
    | [] =>
      simp [bfsF] at h
      rw [bfs_nil, h]
    | c :: rest =>
      by_cases hv : c ∈ visits
      · rw [bfs_cons_visited w meta g c rest visits st hv]
        exact ih rest visits st r (by simpa [bfsF, hv] using h)
      · cases hf : g.vertices.find? (fun b => b.name = c) with
        | none =>
          rw [bfs_cons_stuck w meta g c rest visits st hv hf]
          simp [bfsF, hv, hf] at h
          rw [h]
        | some b =>
          rw [bfs_cons_step w meta g c rest visits st b hv hf]
          cases he : executeBlock w st (lookupAssoc meta b.name)
              (getIncoming g c) (getOutGoing g c) with
          | crash =>
            simp [bfsF, hv, hf, he] at h
            rw [h]
          | ok p =>
            rcases p with ⟨st2, res⟩
            cases res with
            | error e =>
              simp [bfsF, hv, hf, he] at h
              exact h
            | ok u =>
              simp only [bfsF, if_neg hv, hf, he] at h
              exact ih _ _ _ r h

/-- `WorkflowManager` (`types.go`): metadata by block name, compiled
graphs by workflow name, and the shared result store. -/
structure WorkflowManager where
  metadata : List (String × BlockMetadata)
  workflows : List (String × Graph)
  results : List (String × String)
deriving DecidableEq

/-- The `InstallRequest` that `CompileWorkflow` builds for a block. -/
def installRequestOf (b : Block) : InstallRequest :=
  ⟨b.github, b.version, b.force⟩

/-- The block-installation loop of `CompileWorkflow`: in manifest
order, call the package manager's `Install`; on failure return the
wrapped error naming the block; on success record the metadata in the
manager's (persistent) metadata map and continue.  The install calls
actually made are traced. -/
def compileLoop (w : World) :
    WorkflowManager → List InstallRequest → List Block →
      WorkflowManager × List InstallRequest × Except String Unit
  | wm, calls, [] => (wm, calls, .ok ())
  | wm, calls, b :: rest =>
    let req := installRequestOf b
    match w.install req with
    | .error e =>
      (wm, calls ++ [req],
        .error ("failed to install block '" ++ b.name ++ "': " ++ e))
    | .ok md =>
      compileLoop w { wm with metadata := setAssoc wm.metadata b.name md }
        (calls ++ [req]) rest

/-- `CompileWorkflow` (`api.go`, lines 21–46): parse the manifest,
install every block (populating `wm.metadata`), build the graph, and
register it under the manifest's workflow name. -/
def CompileWorkflow (w : World) (wm : WorkflowManager) (path : String) :
    WorkflowManager × List InstallRequest × Except String Unit :=
  match w.manifests path with
  | .error e => (wm, [], .error ("parseWorkflow failed: " ++ e))
  | .ok rwf =>
    match compileLoop w wm [] rwf.blocks with
    | (wm2, calls, .error e) => (wm2, calls, .error e)
    | (wm2, calls, .ok _) =>
      ({ wm2 with workflows := setAssoc wm2.workflows rwf.name (buildGraph rwf) },
        calls, .ok ())

/-- The observational outcome of one run: the vertices on which the
executor was invoked, in order, and the subprocesses spawned. -/
structure RunTrace where
  visits : List String
  spawns : List SpawnRec
deriving DecidableEq

/-- `RunWorkFlow` (`api.go`, lines 49–111): look the compiled graph up
by name — a missing name yields Go's zero value, a nil `graph.Graph`
interface, and `findRootNode` immediately calls `g.AdjacencyMap()` on
it, a nil-interface method call that panics (`GoResult.crash`).  With a
graph: find a root (empty string aborts with "no root node found"
before anything is spawned), then run the BFS from it, with the
manager's result store threaded through. -/
def RunWorkFlow (w : World) (wm : WorkflowManager) (wfn : String) :
    GoResult (WorkflowManager × RunTrace × Except String Unit) :=
  match lookupAssoc wm.workflows wfn with
  | none => .crash
  | some g =>
    let startNode := findRootNode g
    if startNode = "" then .ok (wm, ⟨[], []⟩, .error "no root node found")
    else
      match bfs w wm.metadata g [startNode] [] ⟨wm.results, []⟩ with
      | .crash => .crash
      | .ok (visits, st, r) =>
        .ok ({ wm with results := st.results }, ⟨visits, st.spawns⟩, r)

/-- Evaluation bridge: a terminating fuel run of the BFS determines the
result of `RunWorkFlow` on a registered workflow with a root. -/
theorem RunWorkFlow_eval {w : World} {wm : WorkflowManager} {wfn : String}
    {g : Graph} {fuel : Nat}
    {r : GoResult (List String × ExecState × Except String Unit)}
    (hg : lookupAssoc wm.workflows wfn = some g)
    (hroot : findRootNode g ≠ "")
    (hb : bfsF w wm.metadata g fuel [findRootNode g] [] ⟨wm.results, []⟩ = some r) :
    RunWorkFlow w wm wfn =
      match r with
      | .crash => .crash
      | .ok (visits, st, res) =>
        .ok ({ wm with results := st.results }, ⟨visits, st.spawns⟩, res) := by
  unfold RunWorkFlow
  rw [hg]
  simp only [if_neg hroot]
  rw [bfsF_sound w wm.metadata g fuel _ _ _ r hb]
  rcases r with _ | ⟨visits, st, res⟩ <;> rfl


theorem addEdge_vertices (g : Graph) (s t : String) (p : EdgeProps) :
    (addEdge g s t p).vertices = g.vertices := by
  unfold addEdge
  split
  · rfl
  · split
    · rfl
    · split
      · rfl
      · rfl

theorem addMatchedEdge_vertices (g : Graph) (s d : Connection) :
    (addMatchedEdge g s d).vertices = g.vertices := by
  unfold addMatchedEdge
  split
  · rfl
  · split
    · rfl
    · split
      · rfl
      · exact addEdge_vertices g s.fromBlock d.fromBlock _

theorem foldl_inner_vertices (s : Connection) :
    ∀ (ds : List Connection) (g : Graph),
      (ds.foldl (fun g dst => addMatchedEdge g s dst) g).vertices = g.vertices := by
  intro ds
  induction ds with
  | nil => intro g; rfl
  | cons d ds ih =>
    intro g
    rw [List.foldl_cons, ih, addMatchedEdge_vertices]

theorem foldl_outer_vertices (ds : List Connection) :
    ∀ (ss : List Connection) (g : Graph),
      ((ss.foldl (fun g src => ds.foldl (fun g dst => addMatchedEdge g src dst) g) g)).vertices
        = g.vertices := by
  intro ss
  induction ss with
  | nil => intro g; rfl
  | cons s ss ih =>
    intro g
    rw [List.foldl_cons, ih, foldl_inner_vertices]

theorem foldl_addVertex_edges :
    ∀ (bs : List Block) (g : Graph), (bs.foldl addVertex g).edges = g.edges := by
  intro bs
  induction bs with
  | nil => intro g; rfl
  | cons b bs ih =>
    intro g
    rw [List.foldl_cons, ih]
    unfold addVertex
    split
    · rfl
    · rfl

theorem addVertex_dup (g : Graph) (a : Block)
    (h : g.vertices.any (fun v => v.name = a.name)) : addVertex g a = g := by
  unfold addVertex
  rw [if_pos h]

theorem addVertex_new (g : Graph) (a : Block)
    (h : ¬ g.vertices.any (fun v => v.name = a.name)) :
    addVertex g a = { g with vertices := g.vertices ++ [a] } := by
  unfold addVertex
  rw [if_neg h]

theorem mem_foldl_addVertex_names :
    ∀ (bs : List Block) (g : Graph) (x : String),
      x ∈ (bs.foldl addVertex g).vertexNames ↔
        x ∈ g.vertexNames ∨ ∃ b ∈ bs, b.name = x := by
  intro bs
  induction bs with
  | nil => intro g x; simp
  | cons a bs ih =>
    intro g x
    rw [List.foldl_cons]
    by_cases hdup : g.vertices.any (fun v => v.name = a.name)
    · rw [addVertex_dup g a hdup, ih]
      simp only [List.any_eq_true, decide_eq_true_eq] at hdup
      rcases hdup with ⟨v, hv, hvn⟩
      constructor
      · rintro (h | ⟨b, hb, hbn⟩)
        · exact Or.inl h
        · exact Or.inr ⟨b, List.mem_cons_of_mem a hb, hbn⟩
      · rintro (h | ⟨b, hb, hbn⟩)
        · exact Or.inl h
        · rcases List.mem_cons.mp hb with rfl | hb'
          · refine Or.inl ?_
            have hx : v.name = x := hvn.trans hbn
            exact hx ▸ (List.mem_map.mpr ⟨v, hv, rfl⟩)
          · exact Or.inr ⟨b, hb', hbn⟩
    · rw [addVertex_new g a hdup, ih]
      simp only [Graph.vertexNames, List.map_append, List.map_cons, List.map_nil]
      constructor
      · rintro (h | h)
        · rcases List.mem_append.mp h with h | h
          · exact Or.inl h
          · simp only [List.mem_singleton] at h
            exact Or.inr ⟨a, List.mem_cons_self a bs, h.symm⟩
        · rcases h with ⟨b, hb, hbn⟩
          exact Or.inr ⟨b, List.mem_cons_of_mem a hb, hbn⟩
      · rintro (h | ⟨b, hb, hbn⟩)
        · exact Or.inl (List.mem_append.mpr (Or.inl h))
        · rcases List.mem_cons.mp hb with rfl | hb'
          · exact Or.inl (List.mem_append.mpr (Or.inr (by simp [hbn])))
          · exact Or.inr ⟨b, hb', hbn⟩

theorem addEdge_edgeExists (g : Graph) (s t : String) (p : EdgeProps)
    (u v : String) :
    (addEdge g s t p).edgeExists u v ↔
      g.edgeExists u v ∨
        (s ∈ g.vertexNames ∧ t ∈ g.vertexNames ∧ u = s ∧ v = t) := by
  unfold addEdge
  split
  · next hs =>
    constructor
    · exact Or.inl
    · rintro (h | ⟨h1, _, _, _⟩)
      · exact h
      · exact absurd h1 hs
  · next hs =>
    rw [not_not] at hs
    split
    · next ht =>
      constructor
      · exact Or.inl
      · rintro (h | ⟨_, h2, _, _⟩)
        · exact h
        · exact absurd h2 ht
    · next ht =>
      rw [not_not] at ht
      split
      · next hex =>
        constructor
        · exact Or.inl
        · rintro (h | ⟨_, _, rfl, rfl⟩)
          · exact h
          · exact hex
      · next hex =>
        constructor
        · rintro ⟨e, he, heq⟩
          rcases List.mem_append.mp he with he' | he'
          · exact Or.inl ⟨e, he', heq⟩
          · simp only [List.mem_singleton] at he'
            subst he'
            exact Or.inr ⟨hs, ht, heq.1.symm, heq.2.symm⟩
        · rintro (⟨e, he, heq⟩ | ⟨_, _, hu, hv⟩)
          · exact ⟨e, List.mem_append.mpr (Or.inl he), heq⟩
          · exact ⟨⟨s, t, p⟩, List.mem_append.mpr (Or.inr (by simp)), hu.symm, hv.symm⟩

theorem addMatchedEdge_edgeExists (g : Graph) (s d : Connection) (u v : String) :
    (addMatchedEdge g s d).edgeExists u v ↔
      g.edgeExists u v ∨
        (d.input ≠ "" ∧ s.output = d.input ∧ s.fromBlock = u ∧ d.fromBlock = v ∧
          u ∈ g.vertexNames ∧ v ∈ g.vertexNames) := by
  unfold addMatchedEdge
  split
  · next h =>
    simp [h]
  · next h =>
    split
    · next h2 =>
      constructor
      · exact Or.inl
      · rintro (hh | ⟨hi, ho, _, _, _, _⟩)
        · exact hh
        · exact (hi (by rw [← ho, h2])).elim
    · next h2 =>
      split
      · next h3 =>
        constructor
        · exact Or.inl
        · rintro (hh | ⟨_, ho, _, _, _, _⟩)
          · exact hh
          · exact (h3 ho).elim
      · next h3 =>
        rw [not_not] at h3
        rw [addEdge_edgeExists]
        constructor
        · rintro (hh | ⟨hu, hv, rfl, rfl⟩)
          · exact Or.inl hh
          · exact Or.inr ⟨h, h3, rfl, rfl, hu, hv⟩
        · rintro (hh | ⟨_, _, rfl, rfl, hu, hv⟩)
          · exact Or.inl hh
          · exact Or.inr ⟨hu, hv, rfl, rfl⟩

theorem addMatchedEdge_vertexNames (g : Graph) (s d : Connection) :
    (addMatchedEdge g s d).vertexNames = g.vertexNames := by
  unfold Graph.vertexNames
  rw [addMatchedEdge_vertices]

theorem foldl_inner_vertexNames (s : Connection) (ds : List Connection) (g : Graph) :
    (ds.foldl (fun g dst => addMatchedEdge g s dst) g).vertexNames = g.vertexNames := by
  unfold Graph.vertexNames
  rw [foldl_inner_vertices]

theorem foldl_inner_edgeExists (s : Connection) :
    ∀ (ds : List Connection) (g : Graph) (u v : String),
      (ds.foldl (fun g dst => addMatchedEdge g s dst) g).edgeExists u v ↔
        g.edgeExists u v ∨
          ∃ d ∈ ds, d.input ≠ "" ∧ s.output = d.input ∧ s.fromBlock = u ∧
            d.fromBlock = v ∧ u ∈ g.vertexNames ∧ v ∈ g.vertexNames := by
  intro ds
  induction ds with
  | nil => intro g u v; simp
  | cons d ds ih =>
    intro g u v
    rw [List.foldl_cons, ih, addMatchedEdge_edgeExists, addMatchedEdge_vertexNames]
    constructor
    · rintro ((hh | hd) | ⟨d', hd', hrest⟩)
      · exact Or.inl hh
      · exact Or.inr ⟨d, List.mem_cons_self d ds, hd⟩
      · exact Or.inr ⟨d', List.mem_cons_of_mem d hd', hrest⟩
    · rintro (hh | ⟨d', hd', hrest⟩)
      · exact Or.inl (Or.inl hh)
      · rcases List.mem_cons.mp hd' with rfl | hd''
        · exact Or.inl (Or.inr hrest)
        · exact Or.inr ⟨d', hd'', hrest⟩

theorem foldl_outer_edgeExists (ds : List Connection) :
    ∀ (ss : List Connection) (g : Graph) (u v : String),
      (ss.foldl (fun g src => ds.foldl (fun g dst => addMatchedEdge g src dst) g) g).edgeExists u v ↔
        g.edgeExists u v ∨
          ∃ s ∈ ss, ∃ d ∈ ds, d.input ≠ "" ∧ s.output = d.input ∧
            s.fromBlock = u ∧ d.fromBlock = v ∧
            u ∈ g.vertexNames ∧ v ∈ g.vertexNames := by
  intro ss
  induction ss with
  | nil => intro g u v; simp
  | cons s ss ih =>
    intro g u v
    rw [List.foldl_cons, ih, foldl_inner_edgeExists, foldl_inner_vertexNames]
    constructor
    · rintro ((hh | ⟨d, hd, hrest⟩) | ⟨s', hs', hrest⟩)
      · exact Or.inl hh
      · exact Or.inr ⟨s, List.mem_cons_self s ss, d, hd, hrest⟩
      · exact Or.inr ⟨s', List.mem_cons_of_mem s hs', hrest⟩
    · rintro (hh | ⟨s', hs', d, hd, hrest⟩)
      · exact Or.inl (Or.inl hh)
      · rcases List.mem_cons.mp hs' with rfl | hs''
        · exact Or.inl (Or.inr ⟨d, hd, hrest⟩)
        · exact Or.inr ⟨s', hs'', d, hd, hrest⟩

/-- Characterization of `buildGraph`'s edge set: an edge `u → v` exists
exactly when `u` and `v` are names of declared blocks and some ordered
pair of connections matches (the consumer's input is non-empty and
equals the producer's output). -/
theorem buildGraph_edgeExists_iff (rwf : RawWorkflow) (u v : String) :
    (buildGraph rwf).edgeExists u v ↔
      ((∃ b ∈ rwf.blocks, b.name = u) ∧ (∃ b ∈ rwf.blocks, b.name = v) ∧
        ∃ A ∈ rwf.connections, ∃ B ∈ rwf.connections,
          B.input ≠ "" ∧ A.output = B.input ∧
          A.fromBlock = u ∧ B.fromBlock = v) := by
  unfold buildGraph
  rw [foldl_outer_edgeExists]
  have hedges : (rwf.blocks.foldl addVertex ⟨[], []⟩).edges = ([] : List Edge) :=
    foldl_addVertex_edges rwf.blocks ⟨[], []⟩
  have hnames := mem_foldl_addVertex_names rwf.blocks ⟨[], []⟩
  constructor
  · rintro (⟨e, he, _⟩ | ⟨s, hs, d, hd, hi, ho, hu, hv, hun, hvn⟩)
    · rw [hedges] at he
      cases he
    · refine ⟨?_, ?_, s, hs, d, hd, hi, ho, hu, hv⟩
      · have h2 := (hnames u).mp hun
        simpa [Graph.vertexNames] using h2
      · have h2 := (hnames v).mp hvn
        simpa [Graph.vertexNames] using h2
  · rintro ⟨hu', hv', s, hs, d, hd, hi, ho, hu, hv⟩
    refine Or.inr ⟨s, hs, d, hd, hi, ho, hu, hv, ?_, ?_⟩
    · exact (hnames u).mpr (Or.inr hu')
    · exact (hnames v).mpr (Or.inr hv')

/-- The vertex names of a built graph are exactly the declared block
names. -/
theorem buildGraph_vertexNames (rwf : RawWorkflow) (x : String) :
    x ∈ (buildGraph rwf).vertexNames ↔ ∃ b ∈ rwf.blocks, b.name = x := by
  unfold buildGraph
  have h1 : (rwf.connections.foldl
      (fun g src => rwf.connections.foldl (fun g dst => addMatchedEdge g src dst) g)
      (rwf.blocks.foldl addVertex ⟨[], []⟩)).vertices =
      (rwf.blocks.foldl addVertex ⟨[], []⟩).vertices :=
    foldl_outer_vertices rwf.connections rwf.connections _
  rw [Graph.vertexNames, h1, ← Graph.vertexNames,
    mem_foldl_addVertex_names rwf.blocks ⟨[], []⟩ x]
  simp [Graph.vertexNames]

theorem findRootNode_eq_empty_iff (g : Graph)
    (hnames : ∀ b ∈ g.vertices, b.name ≠ "") :
    findRootNode g = "" ↔ ∀ b ∈ g.vertices, hasIncoming g b.name := by
  unfold findRootNode
  cases hfind : g.vertices.find? (fun b => ¬ hasIncoming g b.name) with
  | none =>
    rw [List.find?_eq_none] at hfind
    constructor
    · intro _ b hb
      have := hfind b hb
      simpa using this
    · intro _
      rfl
  | some b =>
    have hmem := List.mem_of_find?_eq_some hfind
    have hni : ¬ hasIncoming g b.name := by
      have := List.find?_some hfind
      simpa using this
    constructor
    · intro h
      exact absurd h (hnames b hmem)
    · intro h
      exact absurd (h b hmem) hni

theorem findRootNode_spec (g : Graph) (h : findRootNode g ≠ "") :
    ∃ b ∈ g.vertices, findRootNode g = b.name ∧ ¬ hasIncoming g b.name := by
  unfold findRootNode at *
  cases hfind : g.vertices.find? (fun b => ¬ hasIncoming g b.name) with
  | none => rw [hfind] at h; exact absurd rfl h
  | some b =>
    refine ⟨b, List.mem_of_find?_eq_some hfind, rfl, ?_⟩
    have h2 := List.find?_some hfind
    simpa using h2

/-- Unrolling `compileLoop` over a prefix of successful installs up to
a failing block: the prefix's metadata is recorded in the manager, the
install calls stop at the failing block, and the wrapped error names
it. -/
theorem compileLoop_prefix_fail (w : World) (pre : List Block) (b : Block)
    (post : List Block) (f : Block → BlockMetadata) (e : String)
    (hpre : ∀ a ∈ pre, w.install (installRequestOf a) = .ok (f a))
    (hfail : w.install (installRequestOf b) = .error e) :
    ∀ (wm : WorkflowManager) (calls : List InstallRequest),
      compileLoop w wm calls (pre ++ b :: post) =
        ({ wm with metadata :=
            pre.foldl (fun m a => setAssoc m a.name (f a)) wm.metadata },
          calls ++ (pre ++ [b]).map installRequestOf,
          .error ("failed to install block '" ++ b.name ++ "': " ++ e)) := by
  induction pre with
  | nil =>
    intro wm calls
    simp only [List.nil_append, List.map_cons, List.map_nil, List.foldl_nil]
    unfold compileLoop
    simp only [hfail]
  | cons a pre ih =>
    intro wm calls
    have ha : w.install (installRequestOf a) = .ok (f a) :=
      hpre a (List.mem_cons_self a pre)
    have hpre' : ∀ a' ∈ pre, w.install (installRequestOf a') = .ok (f a') :=
      fun a' ha' => hpre a' (List.mem_cons_of_mem a ha')
    rw [List.cons_append]
    unfold compileLoop
    simp only [ha]
    rw [ih hpre' { wm with metadata := setAssoc wm.metadata a.name (f a) }
      (calls ++ [installRequestOf a])]
    simp [List.foldl_cons]

/-! ### Concrete fixtures used by the claim theorems -/

/-- A fresh manager, as produced by `NewWorkflowManager`. -/
def wmEmpty : WorkflowManager := ⟨[], [], []⟩

/-- Installer oracle: every install succeeds, binary path `bin_<repo>`. -/
def installStd : InstallRequest → Except String BlockMetadata :=
  fun r => .ok ⟨r.repo, r.version, "bin_" ++ r.repo⟩

/-- Run oracle: every binary exits zero, stdout echoes binary and stdin. -/
def runEcho : String → String → ExecResult :=
  fun b s => ⟨true, b ++ ">" ++ s, ""⟩

/-- Three-block chain manifest: `a → b → c` via labels `x` and `y`. -/
def wfChain : RawWorkflow :=
  ⟨"wfc", "1", "",
    [⟨"a", "1", "ra", false⟩, ⟨"b", "1", "rb", false⟩, ⟨"c", "1", "rc", false⟩],
    [⟨"a", "e", "x", "", "f"⟩, ⟨"b", "e", "y", "x", ""⟩, ⟨"c", "e", "", "y", ""⟩]⟩

/-- World where `a`'s binary exits non-zero with stderr `boom` and the
file system has only a file named `x` (the shared label). -/
def worldChain : World :=
  ⟨fun _ => .ok wfChain, installStd,
    fun f => if f = "x" then some "fx" else none,
    fun b s => if b = "bin_ra" then ⟨false, "", "boom"⟩ else runEcho b s⟩

def wmChain : WorkflowManager := (CompileWorkflow worldChain wmEmpty "p").1

def gChain : Graph := buildGraph wfChain

/-- Scenario-2 manifest: two blocks, `B.input = A.output = "x"`, with a
declared entry `entry1` and source path `in.txt` on the producer. -/
def wfS2 : RawWorkflow :=
  ⟨"wfs2", "1", "", [⟨"A", "1", "rA", false⟩, ⟨"B", "1", "rB", false⟩],
    [⟨"A", "entry1", "x", "", "in.txt"⟩, ⟨"B", "", "", "x", ""⟩]⟩

/-- World with distinct contents for the file at the declared source
path `in.txt` and for a file that happens to be named like the label. -/
def worldS2 : World :=
  ⟨fun _ => .ok wfS2, installStd,
    fun f => if f = "x" then some "labelfile"
      else if f = "in.txt" then some "realdata" else none,
    runEcho⟩

def wmS2 : WorkflowManager := (CompileWorkflow worldS2 wmEmpty "p").1

/-- Diamond manifest: root `R` feeds `Av` (label `ra`) and `Cv` (label
`pc`); `Av` feeds `P` (label `ap`); `P` also produces `pc` consumed by
`Cv`.  So edge `P → Cv` exists while `Cv` is at BFS distance 1 and `P`
at distance 2 from the root. -/
def wfDiamond : RawWorkflow :=
  ⟨"wfd", "1", "",
    [⟨"R", "1", "rR", false⟩, ⟨"Av", "1", "rA", false⟩,
     ⟨"P", "1", "rP", false⟩, ⟨"Cv", "1", "rC", false⟩],
    [⟨"R", "e", "ra", "", "f"⟩, ⟨"R", "e", "pc", "", "f"⟩,
     ⟨"Av", "e", "ap", "ra", ""⟩, ⟨"P", "e", "pc", "ap", ""⟩,
     ⟨"Cv", "e", "", "pc", ""⟩]⟩

def worldDiamond : World :=
  ⟨fun _ => .ok wfDiamond, installStd, fun f => some ("file:" ++ f), runEcho⟩

def wmDiamond : WorkflowManager := (CompileWorkflow worldDiamond wmEmpty "p").1

def gDiamond : Graph := buildGraph wfDiamond

/-- One-block manifest whose single connection has a non-empty input
label `w` that no connection outputs (a dangling input). -/
def wfDangling : RawWorkflow :=
  ⟨"wfdg", "1", "", [⟨"D", "1", "rD", false⟩], [⟨"D", "e", "x", "w", ""⟩]⟩

def worldDangling : World :=
  ⟨fun _ => .ok wfDangling, installStd, fun _ => none, fun _ _ => ⟨true, "", ""⟩⟩

def wmDangling : WorkflowManager := (CompileWorkflow worldDangling wmEmpty "p").1

/-- Two-block manifest whose labels form a cycle: every vertex has an
incoming edge, so no root exists. -/
def wfCycle : RawWorkflow :=
  ⟨"wfcy", "1", "", [⟨"A", "1", "rA", false⟩, ⟨"B", "1", "rB", false⟩],
    [⟨"A", "e", "x", "y", ""⟩, ⟨"B", "e", "y", "x", ""⟩]⟩

def worldCycle : World :=
  ⟨fun _ => .ok wfCycle, installStd, fun _ => none, fun _ _ => ⟨true, "", ""⟩⟩

def wmCycle : WorkflowManager := (CompileWorkflow worldCycle wmEmpty "p").1

def gCycle : Graph := buildGraph wfCycle

/-- Manifest with an undeclared producer block name (`W`) and an extra
non-matching producer connection, used against the matching claim. -/
def wfBadMatch : RawWorkflow :=
  ⟨"wfbm", "1", "", [⟨"X", "1", "rX", false⟩, ⟨"Z", "1", "rZ", false⟩],
    [⟨"X", "e", "y", "", ""⟩, ⟨"X", "e", "w", "", ""⟩,
     ⟨"Z", "e", "q", "y", ""⟩, ⟨"W", "e", "", "y", ""⟩]⟩

/-- Manifest where one block's output label equals its own input label
on another connection of the same block: a self-loop. -/
def wfSelf : RawWorkflow :=
  ⟨"wfsl", "1", "", [⟨"L", "1", "rL", false⟩],
    [⟨"L", "e", "x", "", ""⟩, ⟨"L", "f", "", "x", ""⟩]⟩

/-- World whose installer fails on repo `rb` (the chain's second block). -/
def worldChainBadInstall : World :=
  ⟨fun _ => .ok wfChain,
    fun r => if r.repo = "rb" then .error "netdown" else installStd r,
    fun _ => none, fun _ _ => ⟨true, "", ""⟩⟩

/-- A world with no registered manifests, installs, files or runs. -/
def worldNull : World :=
  ⟨fun _ => .error "no manifest", fun _ => .error "no install",
    fun _ => none, fun _ _ => ⟨true, "", ""⟩⟩

/-! ### Claim-statement predicates (formalizations of claims that are
refuted on a concrete input) -/

/-- `a` occurs strictly before `b` in `l` (first occurrences). -/
def Before (l : List String) (a b : String) : Prop :=
  a ∈ l ∧ b ∈ l ∧ l.indexOf a < l.indexOf b

instance (l : List String) (a b : String) : Decidable (Before l a b) := by
  unfold Before; infer_instance

/-- C2's ordering property for a visit sequence: every edge's producer
is visited before its consumer. -/
def ProducersFirst (g : Graph) (l : List String) : Prop :=
  ∀ e ∈ g.edges, Before l e.src e.tgt

instance (g : Graph) (l : List String) : Decidable (ProducersFirst g l) := by
  unfold ProducersFirst; infer_instance

/-- C3 as stated, at one manifest: for every pair of connections, an
edge between their blocks exists iff the labels match. -/
def MatchingClaim (rwf : RawWorkflow) : Prop :=
  ∀ A ∈ rwf.connections, ∀ B ∈ rwf.connections,
    ((buildGraph rwf).edgeExists A.fromBlock B.fromBlock ↔
      (B.input ≠ "" ∧ A.output = B.input))

instance (rwf : RawWorkflow) : Decidable (MatchingClaim rwf) := by
  unfold MatchingClaim; infer_instance

instance {ε α : Type} [DecidableEq ε] [DecidableEq α] : DecidableEq (Except ε α) :=
  fun a b =>
    match a, b with
    | .ok x, .ok y =>
      if h : x = y then isTrue (by rw [h])
      else isFalse (by intro hc; cases hc; exact h rfl)
    | .error x, .error y =>
      if h : x = y then isTrue (by rw [h])
      else isFalse (by intro hc; cases hc; exact h rfl)
    | .ok _, .error _ => isFalse (by intro hc; cases hc)
    | .error _, .ok _ => isFalse (by intro hc; cases hc)

/-- C10 as stated, at the empty manager: running a never-compiled name
completes without a panic. -/
def AbsentNameNoPanic : Prop :=
  RunWorkFlow worldNull wmEmpty "never" ≠ GoResult.crash

/-- C9 as stated, at the chain manifest with the failing installer:
wrapped error naming block `b`, no later install call, no registered
workflow, and a discarded metadata map. -/
def CompileAbortClaim : Prop :=
  (CompileWorkflow worldChainBadInstall wmEmpty "p").2.2 =
      .error "failed to install block 'b': netdown" ∧
    (CompileWorkflow worldChainBadInstall wmEmpty "p").2.1 =
      [⟨"ra", "1", false⟩, ⟨"rb", "1", false⟩] ∧
    (CompileWorkflow worldChainBadInstall wmEmpty "p").1.workflows = [] ∧
    (CompileWorkflow worldChainBadInstall wmEmpty "p").1.metadata = []

instance : Decidable CompileAbortClaim := by
  unfold CompileAbortClaim; infer_instance

/-! ### General BFS facts, proved on the fuel evaluator and transferred -/

/-- Reachability from `root` along the graph's directed edges. -/
inductive Reaches (g : Graph) (root : String) : String → Prop where
  | refl : Reaches g root root
  | step {u v : String} (h : Reaches g root u) (e : Edge) (he : e ∈ g.edges)
      (hsrc : e.src = u) (htgt : e.tgt = v) : Reaches g root v

theorem before_append (l t : List String) (a b : String) (h : Before l a b) :
    Before (l ++ t) a b := by
  rcases h with ⟨ha, hb, hab⟩
  refine ⟨List.mem_append_left t ha, List.mem_append_left t hb, ?_⟩
  rw [List.indexOf_append_of_mem ha, List.indexOf_append_of_mem hb]
  exact hab

theorem before_snoc (l : List String) (p c : String) (hp : p ∈ l) (hc : c ∉ l) :
    Before (l ++ [c]) p c := by
  refine ⟨List.mem_append_left _ hp, List.mem_append_right l (by simp), ?_⟩
  rw [List.indexOf_append_of_mem hp, List.indexOf_append_of_not_mem hc]
  simp only [List.indexOf_cons_self, Nat.add_zero]
  exact List.indexOf_lt_length.mpr hp

/-- With present metadata the executor returns normally — and returns
`nil` — no matter what the binaries do. -/
theorem executeBlock_ok (w : World) (st : ExecState) (md : BlockMetadata)
    (incon outcon : List Edge) :
    executeBlock w st (some md) incon outcon =
      .ok (outcon.foldl
        (execOut w (decide (incon.length ≤ 0)) md.binaryPath) st, .ok ()) := rfl

/-- The final visit list extends the initial one. -/
theorem bfsF_visits_extend (w : World) (meta : List (String × BlockMetadata))
    (g : Graph) :
    ∀ (fuel : Nat) (queue visits : List String) (st : ExecState)
      (v' : List String) (st' : ExecState) (res : Except String Unit),
      bfsF w meta g fuel queue visits st = some (.ok (v', st', res)) →
      ∃ t, v' = visits ++ t := by
  intro fuel
  induction fuel with
  | zero => intro queue visits st v' st' res h; simp [bfsF] at h
  | succ fuel ih =>
    intro queue visits st v' st' res h
    match queue with
    | [] =>
      simp [bfsF] at h
      exact ⟨[], by simp [h.1]⟩
    | c :: rest =>
      by_cases hv : c ∈ visits
      · exact ih rest visits st v' st' res (by simpa [bfsF, hv] using h)
      · cases hf : g.vertices.find? (fun b => b.name = c) with
        | none =>
          simp [bfsF, hv, hf] at h
          exact ⟨[], by simp [h.1]⟩
        | some b =>
          cases he : executeBlock w st (lookupAssoc meta b.name)
              (getIncoming g c) (getOutGoing g c) with
          | crash => simp [bfsF, hv, hf, he] at h
          | ok p =>
            rcases p with ⟨st2, res2⟩
            cases res2 with
            | error e =>
              simp [bfsF, hv, hf, he] at h
              exact ⟨[c], by simp [h.1]⟩
            | ok u =>
              simp only [bfsF, if_neg hv, hf, he] at h
              rcases ih _ _ _ _ _ _ h with ⟨t, ht⟩
              exact ⟨c :: t, by simpa using ht⟩

/-- The visit list stays duplicate-free. -/
theorem bfsF_nodup (w : World) (meta : List (String × BlockMetadata))
    (g : Graph) :
    ∀ (fuel : Nat) (queue visits : List String) (st : ExecState)
      (v' : List String) (st' : ExecState) (res : Except String Unit),
      visits.Nodup →
      bfsF w meta g fuel queue visits st = some (.ok (v', st', res)) →
      v'.Nodup := by
  intro fuel
  induction fuel with
  | zero => intro queue visits st v' st' res _ h; simp [bfsF] at h
  | succ fuel ih =>
    intro queue visits st v' st' res hnd h
    match queue with
    | [] =>
      simp [bfsF] at h
      exact h.1 ▸ hnd
    | c :: rest =>
      by_cases hv : c ∈ visits
      · exact ih rest visits st v' st' res hnd (by simpa [bfsF, hv] using h)
      · have hnd' : (visits ++ [c]).Nodup := by
          simp [List.nodup_append, hnd, hv]
        cases hf : g.vertices.find? (fun b => b.name = c) with
        | none =>
          simp [bfsF, hv, hf] at h
          exact h.1 ▸ hnd
        | some b =>
          cases he : executeBlock w st (lookupAssoc meta b.name)
              (getIncoming g c) (getOutGoing g c) with
          | crash => simp [bfsF, hv, hf, he] at h
          | ok p =>
            rcases p with ⟨st2, res2⟩
            cases res2 with
            | error e =>
              simp [bfsF, hv, hf, he] at h
              exact h.1 ▸ hnd'
            | ok u =>
              simp only [bfsF, if_neg hv, hf, he] at h
              exact ih _ _ _ _ _ _ hnd' h

/-- With metadata present for every vertex, edge targets inside the
vertex set, and a queue of vertex names, the BFS neither panics nor
errs: it completes with `nil`. -/
theorem bfsF_success (w : World) (meta : List (String × BlockMetadata))
    (g : Graph)
    (hmeta : ∀ n ∈ g.vertexNames, (lookupAssoc meta n).isSome)
    (hWF : ∀ e ∈ g.edges, e.tgt ∈ g.vertexNames) :
    ∀ (fuel : Nat) (queue visits : List String) (st : ExecState)
      (r : GoResult (List String × ExecState × Except String Unit)),
      (∀ x ∈ queue, x ∈ g.vertexNames) →
      bfsF w meta g fuel queue visits st = some r →
      ∃ v' st', r = .ok (v', st', .ok ()) := by
  intro fuel
  induction fuel with
  | zero => intro queue visits st r _ h; simp [bfsF] at h
  | succ fuel ih =>
    intro queue visits st r hq h
    match queue with
    | [] =>
      simp [bfsF] at h
      exact ⟨visits, st, h.symm⟩
    | c :: rest =>
      have hc : c ∈ g.vertexNames := hq c (List.mem_cons_self c rest)
      by_cases hv : c ∈ visits
      · exact ih rest visits st r
          (fun x hx => hq x (List.mem_cons_of_mem c hx))
          (by simpa [bfsF, hv] using h)
      · cases hf : g.vertices.find? (fun b => b.name = c) with
        | none =>
          rw [List.find?_eq_none] at hf
          rcases List.mem_map.mp hc with ⟨b, hb, hbn⟩
          exact absurd (by simpa using hbn) (by simpa using hf b hb)
        | some b =>
          have hbn : b.name = c := by
            have h2 := List.find?_some hf
            simpa using h2
          rcases Option.isSome_iff_exists.mp
              (hmeta b.name (hbn ▸ hc)) with ⟨md, hmd⟩
          simp only [bfsF, if_neg hv, hf, hmd, executeBlock] at h
          refine ih _ _ _ r ?_ h
          intro x hx
          rcases List.mem_append.mp hx with hx | hx
          · exact hq x (List.mem_cons_of_mem c hx)
          · have hx2 := List.mem_of_mem_filter hx
            rcases List.mem_map.mp hx2 with ⟨e, he, hetgt⟩
            exact hetgt ▸ hWF e (List.mem_of_mem_filter he)

/-- Every finally visited vertex is reachable from `root`, provided the
queue and prior visits are. -/
theorem bfsF_reaches (w : World) (meta : List (String × BlockMetadata))
    (g : Graph) (root : String) :
    ∀ (fuel : Nat) (queue visits : List String) (st : ExecState)
      (v' : List String) (st' : ExecState) (res : Except String Unit),
      (∀ x ∈ queue, Reaches g root x) →
      (∀ x ∈ visits, Reaches g root x) →
      bfsF w meta g fuel queue visits st = some (.ok (v', st', res)) →
      ∀ x ∈ v', Reaches g root x := by
  intro fuel
  induction fuel with
  | zero => intro queue visits st v' st' res _ _ h; simp [bfsF] at h
  | succ fuel ih =>
    intro queue visits st v' st' res hq hvis h
    match queue with
    | [] =>
      simp [bfsF] at h
      exact h.1 ▸ hvis
    | c :: rest =>
      have hcr : Reaches g root c := hq c (List.mem_cons_self c rest)
      have hq' : ∀ x ∈ rest, Reaches g root x :=
        fun x hx => hq x (List.mem_cons_of_mem c hx)
      have hvis' : ∀ x ∈ visits ++ [c], Reaches g root x := by
        intro x hx
        rcases List.mem_append.mp hx with hx | hx
        · exact hvis x hx
        · simp only [List.mem_singleton] at hx
          exact hx ▸ hcr
      by_cases hv : c ∈ visits
      · exact ih rest visits st v' st' res hq' hvis
          (by simpa [bfsF, hv] using h)
      · cases hf : g.vertices.find? (fun b => b.name = c) with
        | none =>
          simp [bfsF, hv, hf] at h
          exact h.1 ▸ hvis
        | some b =>
          cases he : executeBlock w st (lookupAssoc meta b.name)
              (getIncoming g c) (getOutGoing g c) with
          | crash => simp [bfsF, hv, hf, he] at h
          | ok p =>
            rcases p with ⟨st2, res2⟩
            cases res2 with
            | error e =>
              simp [bfsF, hv, hf, he] at h
              exact h.1 ▸ hvis'
            | ok u =>
              simp only [bfsF, if_neg hv, hf, he] at h
              refine ih _ _ _ _ _ _ ?_ hvis' h
              intro x hx
              rcases List.mem_append.mp hx with hx | hx
              · exact hq' x hx
              · have hx2 := List.mem_of_mem_filter hx
                rcases List.mem_map.mp hx2 with ⟨e, he', hetgt⟩
                exact Reaches.step hcr e (List.mem_of_mem_filter he')
                  (by simpa using (List.of_mem_filter he')) hetgt

/-- On a complete (`nil`-returning) run, everything that was visited or
queued ends up in the final visit list. -/
theorem bfsF_absorbs (w : World) (meta : List (String × BlockMetadata))
    (g : Graph) :
    ∀ (fuel : Nat) (queue visits : List String) (st : ExecState)
      (v' : List String) (st' : ExecState),
      bfsF w meta g fuel queue visits st = some (.ok (v', st', .ok ())) →
      ∀ x, (x ∈ visits ∨ x ∈ queue) → x ∈ v' := by
  intro fuel
  induction fuel with
  | zero => intro queue visits st v' st' h; simp [bfsF] at h
  | succ fuel ih =>
    intro queue visits st v' st' h
    match queue with
    | [] =>
      simp [bfsF] at h
      intro x hx
      rcases hx with hx | hx
      · exact h.1 ▸ hx
      · cases hx
    | c :: rest =>
      by_cases hv : c ∈ visits
      · intro x hx
        refine ih rest visits st v' st' (by simpa [bfsF, hv] using h) x ?_
        rcases hx with hx | hx
        · exact Or.inl hx
        · rcases List.mem_cons.mp hx with rfl | hx
          · exact Or.inl hv
          · exact Or.inr hx
      · cases hf : g.vertices.find? (fun b => b.name = c) with
        | none => simp [bfsF, hv, hf] at h
        | some b =>
          cases he : executeBlock w st (lookupAssoc meta b.name)
              (getIncoming g c) (getOutGoing g c) with
          | crash => simp [bfsF, hv, hf, he] at h
          | ok p =>
            rcases p with ⟨st2, res2⟩
            cases res2 with
            | error e => simp [bfsF, hv, hf, he] at h
            | ok u =>
              simp only [bfsF, if_neg hv, hf, he] at h
              intro x hx
              refine ih _ _ _ v' st' h x ?_
              rcases hx with hx | hx
              · exact Or.inl (List.mem_append_left _ hx)
              · rcases List.mem_cons.mp hx with rfl | hx
                · exact Or.inl (List.mem_append_right _ (by simp))
                · exact Or.inr (List.mem_append_left _ hx)

/-- On a complete run, the final visit list is closed under the graph's
edges, provided the starting state is closed modulo the queue. -/
theorem bfsF_closed (w : World) (meta : List (String × BlockMetadata))
    (g : Graph) :
    ∀ (fuel : Nat) (queue visits : List String) (st : ExecState)
      (v' : List String) (st' : ExecState),
      (∀ u ∈ visits, ∀ e ∈ g.edges, e.src = u → e.tgt ∈ visits ∨ e.tgt ∈ queue) →
      bfsF w meta g fuel queue visits st = some (.ok (v', st', .ok ())) →
      ∀ u ∈ v', ∀ e ∈ g.edges, e.src = u → e.tgt ∈ v' := by
  intro fuel
  induction fuel with
  | zero => intro queue visits st v' st' _ h; simp [bfsF] at h
  | succ fuel ih =>
    intro queue visits st v' st' hcl h
    match queue with
    | [] =>
      simp [bfsF] at h
      intro u hu e he hsrc
      rcases hcl u (h.1 ▸ hu) e he hsrc with ht | ht
      · exact h.1 ▸ ht
      · cases ht
    | c :: rest =>
      by_cases hv : c ∈ visits
      · refine ih rest visits st v' st' ?_ (by simpa [bfsF, hv] using h)
        intro u hu e he hsrc
        rcases hcl u hu e he hsrc with ht | ht
        · exact Or.inl ht
        · rcases List.mem_cons.mp ht with hteq | ht
          · exact Or.inl (hteq ▸ hv)
          · exact Or.inr ht
      · cases hf : g.vertices.find? (fun b => b.name = c) with
        | none => simp [bfsF, hv, hf] at h
        | some b =>
          cases he : executeBlock w st (lookupAssoc meta b.name)
              (getIncoming g c) (getOutGoing g c) with
          | crash => simp [bfsF, hv, hf, he] at h
          | ok p =>
            rcases p with ⟨st2, res2⟩
            cases res2 with
            | error e => simp [bfsF, hv, hf, he] at h
            | ok u0 =>
              simp only [bfsF, if_neg hv, hf, he] at h
              refine ih _ _ _ v' st' ?_ h
              intro u hu e' he' hsrc
              rcases List.mem_append.mp hu with hu | hu
              · rcases hcl u hu e' he' hsrc with ht | ht
                · exact Or.inl (List.mem_append_left _ ht)
                · rcases List.mem_cons.mp ht with hteq | ht
                  · exact Or.inl (hteq ▸ List.mem_append_right _ (by simp))
                  · exact Or.inr (List.mem_append_left _ ht)
              · simp only [List.mem_singleton] at hu
                subst hu
                by_cases htv : e'.tgt ∈ visits ++ [u]
                · exact Or.inl htv
                · refine Or.inr (List.mem_append_right _ ?_)
                  refine List.mem_filter.mpr ⟨?_, by simpa using htv⟩
                  exact List.mem_map.mpr
                    ⟨e', List.mem_filter.mpr ⟨he', by simpa using hsrc⟩, rfl⟩

/-- Every finally visited vertex other than `root` has an in-edge whose
producer occurs strictly earlier in the final visit order. -/
theorem bfsF_predecessor (w : World) (meta : List (String × BlockMetadata))
    (g : Graph) (root : String) :
    ∀ (fuel : Nat) (queue visits : List String) (st : ExecState)
      (v' : List String) (st' : ExecState) (res : Except String Unit),
      (∀ x ∈ queue, x = root ∨ ∃ e ∈ g.edges, e.tgt = x ∧ e.src ∈ visits) →
      (∀ c ∈ visits, c ≠ root → ∃ e ∈ g.edges, e.tgt = c ∧ Before visits e.src c) →
      bfsF w meta g fuel queue visits st = some (.ok (v', st', res)) →
      ∀ c ∈ v', c ≠ root → ∃ e ∈ g.edges, e.tgt = c ∧ Before v' e.src c := by
  intro fuel
  induction fuel with
  | zero => intro queue visits st v' st' res _ _ h; simp [bfsF] at h
  | succ fuel ih =>
    intro queue visits st v' st' res hq hvis h
    match queue with
    | [] =>
      simp [bfsF] at h
      exact h.1 ▸ hvis
    | c :: rest =>
      have hq' : ∀ x ∈ rest, x = root ∨ ∃ e ∈ g.edges, e.tgt = x ∧ e.src ∈ visits :=
        fun x hx => hq x (List.mem_cons_of_mem c hx)
      by_cases hv : c ∈ visits
      · exact ih rest visits st v' st' res hq' hvis
          (by simpa [bfsF, hv] using h)
      · have hvis' : ∀ x ∈ visits ++ [c], x ≠ root →
            ∃ e ∈ g.edges, e.tgt = x ∧ Before (visits ++ [c]) e.src x := by
          intro x hx hxr
          rcases List.mem_append.mp hx with hx | hx
          · rcases hvis x hx hxr with ⟨e, he, het, hb⟩
            exact ⟨e, he, het, before_append visits [c] e.src x hb⟩
          · simp only [List.mem_singleton] at hx
            subst hx
            rcases hq x (List.mem_cons_self x rest) with hxr' | ⟨e, he, het, hes⟩
            · exact absurd hxr' hxr
            · exact ⟨e, he, het, before_snoc visits e.src x hes hv⟩
        cases hf : g.vertices.find? (fun b => b.name = c) with
        | none =>
          simp [bfsF, hv, hf] at h
          exact h.1 ▸ hvis
        | some b =>
          cases he : executeBlock w st (lookupAssoc meta b.name)
              (getIncoming g c) (getOutGoing g c) with
          | crash => simp [bfsF, hv, hf, he] at h
          | ok p =>
            rcases p with ⟨st2, res2⟩
            cases res2 with
            | error e =>
              simp [bfsF, hv, hf, he] at h
              exact h.1 ▸ hvis'
            | ok u =>
              simp only [bfsF, if_neg hv, hf, he] at h
              refine ih _ _ _ _ _ _ ?_ hvis' h
              intro x hx
              rcases List.mem_append.mp hx with hx | hx
              · rcases hq' x hx with hxr | ⟨e', he', het, hes⟩
                · exact Or.inl hxr
                · exact Or.inr ⟨e', he', het, List.mem_append_left _ hes⟩
              · have hx2 := List.mem_of_mem_filter hx
                rcases List.mem_map.mp hx2 with ⟨e', he', hetgt⟩
                refine Or.inr ⟨e', List.mem_of_mem_filter he', hetgt, ?_⟩
                have hsrc : e'.src = c := by
                  simpa using List.of_mem_filter he'
                exact hsrc ▸ List.mem_append_right _ (by simp)

/-- The fuel bound under which `bfsF` always terminates. -/
def bfsBound (g : Graph) (queue visits : List String) : Nat :=
  (g.vertices.filter (fun b => decide (b.name ∉ visits))).length *
    (1 + g.edges.length) + queue.length + 1

/-- `bfsF` completes whenever the fuel exceeds the loop measure. -/
theorem bfsF_total (w : World) (meta : List (String × BlockMetadata))
    (g : Graph) :
    ∀ (fuel : Nat) (queue visits : List String) (st : ExecState),
      (g.vertices.filter (fun b => decide (b.name ∉ visits))).length *
          (1 + g.edges.length) + queue.length < fuel →
      (bfsF w meta g fuel queue visits st).isSome := by
  intro fuel
  induction fuel with
  | zero => intro queue visits st hlt; omega
  | succ fuel ih =>
    intro queue visits st hlt
    match queue with
    | [] => simp [bfsF]
    | c :: rest =>
      by_cases hv : c ∈ visits
      · simp only [bfsF, if_pos hv]
        refine ih rest visits st ?_
        simp only [List.length_cons] at hlt
        omega
      · cases hf : g.vertices.find? (fun b => b.name = c) with
        | none => simp [bfsF, hv, hf]
        | some b =>
          cases he : executeBlock w st (lookupAssoc meta b.name)
              (getIncoming g c) (getOutGoing g c) with
          | crash => simp [bfsF, hv, hf, he]
          | ok p =>
            rcases p with ⟨st2, res2⟩
            cases res2 with
            | error e => simp [bfsF, hv, hf, he]
            | ok u =>
              simp only [bfsF, if_neg hv, hf, he]
              refine ih _ _ st2 ?_
              have hb : ∃ v ∈ g.vertices, v.name = c :=
                ⟨b, List.mem_of_find?_eq_some hf, by simpa using List.find?_some hf⟩
              have hlt2 := length_filter_notMem_lt g.vertices visits c hb hv
              have henq : (((getOutGoing g c).map (fun e => e.tgt)).filter
                  (fun t => decide (t ∉ visits ++ [c]))).length ≤ g.edges.length := by
                calc (((getOutGoing g c).map (fun e => e.tgt)).filter
                      (fun t => decide (t ∉ visits ++ [c]))).length
                    ≤ ((getOutGoing g c).map (fun e => e.tgt)).length :=
                      List.length_filter_le _ _
                  _ = (getOutGoing g c).length := List.length_map _ _
                  _ ≤ g.edges.length := List.length_filter_le _ _
              have hmul :
                  (g.vertices.filter (fun b => decide (b.name ∉ visits ++ [c]))).length *
                      (1 + g.edges.length) + (1 + g.edges.length) ≤
                    (g.vertices.filter (fun b => decide (b.name ∉ visits))).length *
                      (1 + g.edges.length) := by
                have h2 := Nat.mul_le_mul_right (1 + g.edges.length) hlt2
                rw [Nat.succ_mul] at h2
                exact h2
              simp only [List.length_append, List.length_cons] at hlt ⊢
              omega

/-- `bfsF` with the canonical bound always yields a result. -/
theorem bfsF_bound_some (w : World) (meta : List (String × BlockMetadata))
    (g : Graph) (queue visits : List String) (st : ExecState) :
    (bfsF w meta g (bfsBound g queue visits) queue visits st).isSome := by
  refine bfsF_total w meta g _ queue visits st ?_
  unfold bfsBound
  omega

/-! ### Claim theorems -/

/-- C1 (code_bug): `executeBlock` discards the errors of `fromSource`
and `fromNode`, so when block `a`'s binary exits non-zero (stderr
`boom`), `RunWorkFlow` does not abort and does not surface any error:
it returns `nil`, and the downstream block `b`'s binary is still
spawned after the failure.  The claim (abort immediately, propagate an
error carrying the stderr and the block name, run nothing downstream)
describes the intended failure policy, which the code's own plumbing
(`error executing block %s` in `RunWorkFlow`, the wrapped errors built
by `fromSource`/`fromNode`) shows was meant to be reached. -/
theorem c1_executor_errors_dropped :
    (worldChain.run "bin_ra" "fx").exitOk = false ∧
    gChain.edgeExists "a" "b" ∧ gChain.edgeExists "b" "c" ∧
    RunWorkFlow worldChain wmChain "wfc" =
      .ok ({ wmChain with results := [("y", "bin_rb>")] },
        ⟨["a", "b", "c"], [⟨"bin_ra", [], "fx"⟩, ⟨"bin_rb", [], ""⟩]⟩,
        .ok ()) := by
  refine ⟨rfl, by decide, by decide, ?_⟩
  have hb : bfsF worldChain wmChain.metadata gChain 12 [findRootNode gChain] []
      ⟨wmChain.results, []⟩ =
      some (.ok (["a", "b", "c"],
        ⟨[("y", "bin_rb>")], [⟨"bin_ra", [], "fx"⟩, ⟨"bin_rb", [], ""⟩]⟩,
        .ok ())) := by rfl
  exact @RunWorkFlow_eval worldChain wmChain "wfc" gChain 12 _ rfl (by decide) hb

/-- C2 (corrected), counterexample: in the diamond workflow the edge
`P → Cv` exists, yet the BFS visits `Cv` (distance 1 from the root)
before `P` (distance 2), so the producer-before-consumer ordering
claimed for every graph fails; with it fails the claim that the
producer's Result-Store write precedes the consumer's turn. -/
theorem c2_counterexample :
    RunWorkFlow worldDiamond wmDiamond "wfd" =
      .ok ({ wmDiamond with results :=
          [("ra", "bin_rR>file:ra"), ("pc", "bin_rP>bin_rR>file:pc"),
            ("ap", "bin_rA>")] },
        ⟨["R", "Av", "Cv", "P"],
          [⟨"bin_rR", [], "file:ra"⟩, ⟨"bin_rR", [], "file:pc"⟩,
            ⟨"bin_rA", [], ""⟩, ⟨"bin_rP", [], "bin_rR>file:pc"⟩]⟩,
        .ok ()) ∧
    gDiamond.edgeExists "P" "Cv" ∧
    ¬ ProducersFirst gDiamond ["R", "Av", "Cv", "P"] := by
  refine ⟨?_, by decide, by decide⟩
  have hb : bfsF worldDiamond wmDiamond.metadata gDiamond 21
      [findRootNode gDiamond] [] ⟨wmDiamond.results, []⟩ =
      some (.ok (["R", "Av", "Cv", "P"],
        ⟨[("ra", "bin_rR>file:ra"), ("pc", "bin_rP>bin_rR>file:pc"),
            ("ap", "bin_rA>")],
          [⟨"bin_rR", [], "file:ra"⟩, ⟨"bin_rR", [], "file:pc"⟩,
            ⟨"bin_rA", [], ""⟩, ⟨"bin_rP", [], "bin_rR>file:pc"⟩]⟩,
        .ok ())) := by rfl
  exact @RunWorkFlow_eval worldDiamond wmDiamond "wfd" gDiamond 21 _ rfl (by decide) hb

/-- C3 (corrected), counterexample: at `wfBadMatch` the per-pair
matching equivalence fails in both directions — the pair
(`X` produces `y`, undeclared `W` consumes `y`) matches but produces no
edge (`AddEdge` fails on the missing vertex), and the pair (`X`
produces `w`, `Z` consumes `y`) does not match although the edge
`X → Z` exists (added for a different pair). -/
theorem c3_counterexample : ¬ MatchingClaim wfBadMatch := by decide

/-- C3 (corrected), amended: an edge `u → v` exists in the compiled
graph iff `u` and `v` are declared block names AND some ordered pair of
connections (A from `u`, B from `v`) has a non-empty consumer input
equal to the producer output. -/
theorem c3_matching_amended (rwf : RawWorkflow) (u v : String) :
    (buildGraph rwf).edgeExists u v ↔
      ((∃ b ∈ rwf.blocks, b.name = u) ∧ (∃ b ∈ rwf.blocks, b.name = v) ∧
        ∃ A ∈ rwf.connections, ∃ B ∈ rwf.connections,
          B.input ≠ "" ∧ A.output = B.input ∧
          A.fromBlock = u ∧ B.fromBlock = v) :=
  buildGraph_edgeExists_iff rwf u v

/-- C4 (code_bug): for the scenario-2 manifest the graph has exactly
one edge `A → B`, the root finder returns `A`, and the run invokes the
executor on `A` before `B`; but `B`'s binary is never spawned at all
(the executor only spawns once per outgoing edge and `B` has none), so
`B` cannot receive `A`'s captured stdout — contradicting the claim's
last conjunct, while the code's own TODO comments mark the data-passing
as unfinished. -/
theorem c4_consumer_binary_never_spawned :
    (buildGraph wfS2).edges = [⟨"A", "B", ⟨"entry1", "x", "x", "in.txt"⟩⟩] ∧
    findRootNode (buildGraph wfS2) = "A" ∧
    RunWorkFlow worldS2 wmS2 "wfs2" =
      .ok ({ wmS2 with results := [("x", "bin_rA>labelfile")] },
        ⟨["A", "B"], [⟨"bin_rA", [], "labelfile"⟩]⟩, .ok ()) := by
  refine ⟨rfl, rfl, ?_⟩
  have hb : bfsF worldS2 wmS2.metadata (buildGraph wfS2) 8
      [findRootNode (buildGraph wfS2)] [] ⟨wmS2.results, []⟩ =
      some (.ok (["A", "B"],
        ⟨[("x", "bin_rA>labelfile")], [⟨"bin_rA", [], "labelfile"⟩]⟩,
        .ok ())) := by rfl
  exact @RunWorkFlow_eval worldS2 wmS2 "wfs2" (buildGraph wfS2) 8 _ rfl (by decide) hb

/-- C5 (code_bug): executing the root vertex `A` spawns its binary with
NO argument (the two-argument `runBinaryWithPipe` passes no entry, so
`args = []`, not `["entry1"]`) and with stdin read from the file whose
path is the edge's INPUT-LABEL attribute `x` (content `labelfile`), not
from the file at the edge's source-path attribute `in.txt` (content
`realdata`); only the last conjunct of the claim — storing the captured
stdout under the output label `x` — holds.  The code's own TODO says
the entry plumbing is not done. -/
theorem c5_root_spawn_diverges :
    worldS2.files "x" = some "labelfile" ∧
    worldS2.files "in.txt" = some "realdata" ∧
    (getOutGoing (buildGraph wfS2) "A").map (fun e => e.props) =
      [⟨"entry1", "x", "x", "in.txt"⟩] ∧
    RunWorkFlow worldS2 wmS2 "wfs2" =
      .ok ({ wmS2 with results := [("x", "bin_rA>labelfile")] },
        ⟨["A", "B"], [⟨"bin_rA", [], "labelfile"⟩]⟩, .ok ()) := by
  refine ⟨rfl, rfl, rfl, ?_⟩
  have hb : bfsF worldS2 wmS2.metadata (buildGraph wfS2) 8
      [findRootNode (buildGraph wfS2)] [] ⟨wmS2.results, []⟩ =
      some (.ok (["A", "B"],
        ⟨[("x", "bin_rA>labelfile")], [⟨"bin_rA", [], "labelfile"⟩]⟩,
        .ok ())) := by rfl
  exact @RunWorkFlow_eval worldS2 wmS2 "wfs2" (buildGraph wfS2) 8 _ rfl (by decide) hb

/-- C6 (corrected), counterexample: in `wfDangling` no connection has
an empty input label, yet `RunWorkFlow` does NOT return a "no root
found" error — the dangling input leaves `D` without incoming edges, so
`D` is returned as root and the run completes normally. -/
theorem c6_counterexample :
    (∀ c ∈ wfDangling.connections, c.input ≠ "") ∧
    RunWorkFlow worldDangling wmDangling "wfdg" =
      .ok (wmDangling, ⟨["D"], []⟩, .ok ()) := by
  refine ⟨by decide, ?_⟩
  have hb : bfsF worldDangling wmDangling.metadata (buildGraph wfDangling) 4
      [findRootNode (buildGraph wfDangling)] [] ⟨wmDangling.results, []⟩ =
      some (.ok (["D"], ⟨[], []⟩, .ok ())) := by rfl
  exact @RunWorkFlow_eval worldDangling wmDangling "wfdg" (buildGraph wfDangling) 4 _ rfl (by decide) hb

/-- C6 (corrected), amended: the root finder signals "not found"
exactly when every vertex has at least one incoming edge (given that no
vertex is named by the empty string); in that case `RunWorkFlow`
returns the "no root node found" error with nothing executed or
spawned; otherwise the root finder returns some vertex with zero
incoming edges.  A manifest with no empty-input connection does NOT
imply this situation (see the counterexample). -/
theorem c6_no_root_amended (w : World) (wm : WorkflowManager) (wfn : String)
    (g : Graph) (hreg : lookupAssoc wm.workflows wfn = some g)
    (hnames : ∀ b ∈ g.vertices, b.name ≠ "") :
    (findRootNode g = "" ↔ ∀ b ∈ g.vertices, hasIncoming g b.name) ∧
    (findRootNode g = "" →
      RunWorkFlow w wm wfn = .ok (wm, ⟨[], []⟩, .error "no root node found")) ∧
    (findRootNode g ≠ "" →
      ∃ b ∈ g.vertices, findRootNode g = b.name ∧ ¬ hasIncoming g b.name) := by
  refine ⟨findRootNode_eq_empty_iff g hnames, ?_, findRootNode_spec g⟩
  intro h
  unfold RunWorkFlow
  rw [hreg]
  simp [h]

/-- Witness for `c6_no_root_amended` at the cyclic two-block manifest:
every vertex has an incoming edge, and the run aborts with the no-root
error having spawned nothing. -/
theorem c6_no_root_amended_witness :
    RunWorkFlow worldCycle wmCycle "wfcy" =
      .ok (wmCycle, ⟨[], []⟩, .error "no root node found") := by
  have h := c6_no_root_amended worldCycle wmCycle "wfcy" gCycle rfl (by decide)
  exact h.2.1 (by decide)

/-- C7 (confirmed): whenever two connections of the same declared block
match (the consumer's non-empty input equals the producer's output),
the built graph contains a self-edge on that block's vertex — the
builder performs no cycle detection (`Acyclic` without `PreventCycles`
never runs the cycle check), so the cycle-creating self-edge is kept. -/
theorem c7_self_loop (rwf : RawWorkflow) (A B : Connection)
    (hA : A ∈ rwf.connections) (hB : B ∈ rwf.connections)
    (hsame : B.fromBlock = A.fromBlock)
    (hin : B.input ≠ "") (hm : A.output = B.input)
    (hdecl : ∃ b ∈ rwf.blocks, b.name = A.fromBlock) :
    (buildGraph rwf).edgeExists A.fromBlock A.fromBlock := by
  rw [buildGraph_edgeExists_iff]
  exact ⟨hdecl, hdecl, A, hA, B, hB, hin, hm, rfl, hsame⟩

/-- Witness for `c7_self_loop` at the one-block manifest `wfSelf`. -/
theorem c7_self_loop_witness : (buildGraph wfSelf).edgeExists "L" "L" :=
  c7_self_loop wfSelf ⟨"L", "e", "x", "", ""⟩ ⟨"L", "f", "", "x", ""⟩
    (by decide) (by decide) rfl (by decide) (by decide) (by decide)

/-- C8 (confirmed): on a registered workflow whose graph's edge targets
are vertices, with metadata recorded for every vertex and a root found,
one full `RunWorkFlow` traversal completes normally and invokes the
block executor on every vertex reachable from the chosen root exactly
once (the invocation list is duplicate-free and contains precisely the
reachable vertices), no matter how many incoming edges a vertex has or
how often it is enqueued. -/
theorem c8_visit_once (w : World) (wm : WorkflowManager) (wfn : String)
    (g : Graph) (hreg : lookupAssoc wm.workflows wfn = some g)
    (hWF : ∀ e ∈ g.edges, e.tgt ∈ g.vertexNames)
    (hmeta : ∀ n ∈ g.vertexNames, (lookupAssoc wm.metadata n).isSome)
    (hroot : findRootNode g ≠ "") :
    ∃ wm' tr, RunWorkFlow w wm wfn = .ok (wm', tr, .ok ()) ∧
      tr.visits.Nodup ∧
      ∀ v, v ∈ tr.visits ↔ Reaches g (findRootNode g) v := by
  obtain ⟨r, hr⟩ := Option.isSome_iff_exists.mp
    (bfsF_bound_some w wm.metadata g [findRootNode g] [] ⟨wm.results, []⟩)
  have hroot_mem : findRootNode g ∈ g.vertexNames := by
    rcases findRootNode_spec g hroot with ⟨b, hb, heq, _⟩
    exact heq ▸ List.mem_map.mpr ⟨b, hb, rfl⟩
  obtain ⟨v', st', rfl⟩ := bfsF_success w wm.metadata g hmeta hWF _ _ _ _ r
    (by intro x hx; simp only [List.mem_singleton] at hx; exact hx ▸ hroot_mem) hr
  have hbfs := bfsF_sound w wm.metadata g _ _ _ _ _ hr
  refine ⟨{ wm with results := st'.results }, ⟨v', st'.spawns⟩, ?_, ?_, ?_⟩
  · unfold RunWorkFlow
    rw [hreg]
    simp only [if_neg hroot]
    rw [hbfs]
  · exact bfsF_nodup w wm.metadata g _ _ _ _ _ _ _ (by simp) hr
  · intro v
    constructor
    · intro hv
      exact bfsF_reaches w wm.metadata g (findRootNode g) _ _ _ _ _ _ _
        (by intro x hx; simp only [List.mem_singleton] at hx
            exact hx ▸ Reaches.refl)
        (by simp) hr v hv
    · intro hv
      have hclosed := bfsF_closed w wm.metadata g _ _ _ _ _ _ (by simp) hr
      have habs := bfsF_absorbs w wm.metadata g _ _ _ _ _ _ hr
      induction hv with
      | refl => exact habs _ (Or.inr (by simp))
      | step h e he hsrc htgt ihm => exact htgt ▸ hclosed _ ihm e he hsrc

/-- Witness for `c8_visit_once` at the compiled diamond workflow. -/
theorem c8_visit_once_witness :
    ∃ wm' tr, RunWorkFlow worldDiamond wmDiamond "wfd" = .ok (wm', tr, .ok ()) ∧
      tr.visits.Nodup ∧
      ∀ v, v ∈ tr.visits ↔ Reaches gDiamond (findRootNode gDiamond) v :=
  c8_visit_once worldDiamond wmDiamond "wfd" gDiamond rfl
    (by decide) (by decide) (by decide)

/-- C2 (corrected), amended: on a completed traversal, every visited
vertex other than the root has at least one incoming edge whose
producer was executed strictly earlier in the visit order; the original
per-edge producer-before-consumer ordering fails (see the
counterexample). -/
theorem c2_predecessor_before_consumer (w : World) (wm : WorkflowManager)
    (wfn : String) (g : Graph)
    (hreg : lookupAssoc wm.workflows wfn = some g)
    (hWF : ∀ e ∈ g.edges, e.tgt ∈ g.vertexNames)
    (hmeta : ∀ n ∈ g.vertexNames, (lookupAssoc wm.metadata n).isSome)
    (hroot : findRootNode g ≠ "") :
    ∃ wm' tr, RunWorkFlow w wm wfn = .ok (wm', tr, .ok ()) ∧
      ∀ c ∈ tr.visits, c ≠ findRootNode g →
        ∃ e ∈ g.edges, e.tgt = c ∧ Before tr.visits e.src c := by
  obtain ⟨r, hr⟩ := Option.isSome_iff_exists.mp
    (bfsF_bound_some w wm.metadata g [findRootNode g] [] ⟨wm.results, []⟩)
  have hroot_mem : findRootNode g ∈ g.vertexNames := by
    rcases findRootNode_spec g hroot with ⟨b, hb, heq, _⟩
    exact heq ▸ List.mem_map.mpr ⟨b, hb, rfl⟩
  obtain ⟨v', st', rfl⟩ := bfsF_success w wm.metadata g hmeta hWF _ _ _ _ r
    (by intro x hx; simp only [List.mem_singleton] at hx; exact hx ▸ hroot_mem) hr
  have hbfs := bfsF_sound w wm.metadata g _ _ _ _ _ hr
  refine ⟨{ wm with results := st'.results }, ⟨v', st'.spawns⟩, ?_, ?_⟩
  · unfold RunWorkFlow
    rw [hreg]
    simp only [if_neg hroot]
    rw [hbfs]
  · exact bfsF_predecessor w wm.metadata g (findRootNode g) _ _ _ _ _ _ _
      (by intro x hx; simp only [List.mem_singleton] at hx; exact Or.inl hx)
      (by simp) hr

/-- Witness for `c2_predecessor_before_consumer` at the compiled
diamond workflow. -/
theorem c2_predecessor_before_consumer_witness :
    ∃ wm' tr, RunWorkFlow worldDiamond wmDiamond "wfd" = .ok (wm', tr, .ok ()) ∧
      ∀ c ∈ tr.visits, c ≠ findRootNode gDiamond →
        ∃ e ∈ gDiamond.edges, e.tgt = c ∧ Before tr.visits e.src c :=
  c2_predecessor_before_consumer worldDiamond wmDiamond "wfd" gDiamond rfl
    (by decide) (by decide) (by decide)

/-- C9 (corrected), counterexample: compiling the chain manifest with
an installer that fails on block `b` returns the wrapped error naming
`b`, makes no further install call and registers no workflow — but the
manager's metadata map is NOT discarded: it retains block `a`'s entry
(`CompileWorkflow` writes directly into `wm.metadata`, not into a
per-attempt local map). -/
theorem c9_counterexample : ¬ CompileAbortClaim := by decide

/-- C9 (corrected), amended: if the installer succeeds on every block
before `b` and fails on `b` with error `e`, `CompileWorkflow` stops at
`b` (install calls are exactly those for the prefix and `b`), returns
the wrapped error naming `b`, registers no workflow, and leaves the
manager unchanged EXCEPT that the metadata entries of the prefix blocks
remain recorded. -/
theorem c9_partial_install_retained (w : World) (wm : WorkflowManager)
    (path : String) (rwf : RawWorkflow) (pre : List Block) (b : Block)
    (post : List Block) (f : Block → BlockMetadata) (e : String)
    (hman : w.manifests path = .ok rwf)
    (hblocks : rwf.blocks = pre ++ b :: post)
    (hpre : ∀ a ∈ pre, w.install (installRequestOf a) = .ok (f a))
    (hfail : w.install (installRequestOf b) = .error e) :
    CompileWorkflow w wm path =
      ({ wm with metadata :=
          pre.foldl (fun m a => setAssoc m a.name (f a)) wm.metadata },
        (pre ++ [b]).map installRequestOf,
        .error ("failed to install block '" ++ b.name ++ "': " ++ e)) := by
  unfold CompileWorkflow
  rw [hman]
  dsimp only
  rw [hblocks, compileLoop_prefix_fail w pre b post f e hpre hfail wm []]
  rfl

/-- Witness for `c9_partial_install_retained` at the chain manifest
with the installer failing on `b`. -/
theorem c9_partial_install_retained_witness :
    CompileWorkflow worldChainBadInstall wmEmpty "p" =
      ({ wmEmpty with metadata := [("a", ⟨"ra", "1", "bin_ra"⟩)] },
        [⟨"ra", "1", false⟩, ⟨"rb", "1", false⟩],
        .error "failed to install block 'b': netdown") := by
  have h := c9_partial_install_retained worldChainBadInstall wmEmpty "p" wfChain
    [⟨"a", "1", "ra", false⟩] ⟨"b", "1", "rb", false⟩ [⟨"c", "1", "rc", false⟩]
    (fun a => ⟨a.github, a.version, "bin_" ++ a.github⟩) "netdown"
    rfl rfl (by decide) rfl
  exact h

/-- C10 (corrected), counterexample: running a never-compiled workflow
name does NOT complete without a panic — the zero-value nil graph
interface is dereferenced by `findRootNode`'s `g.AdjacencyMap()` call,
which panics. -/
theorem c10_counterexample : ¬ AbsentNameNoPanic := by
  intro h
  exact h rfl

/-- C10 (corrected), amended: for every workflow name absent from the
manager's registry, `RunWorkFlow` panics (nil-interface method call)
rather than returning an error. -/
theorem c10_absent_name_panics (w : World) (wm : WorkflowManager)
    (wfn : String) (h : lookupAssoc wm.workflows wfn = none) :
    RunWorkFlow w wm wfn = GoResult.crash := by
  unfold RunWorkFlow
  rw [h]

/-- Witness for `c10_absent_name_panics` at the fresh manager. -/
theorem c10_absent_name_panics_witness :
    RunWorkFlow worldNull wmEmpty "never" = GoResult.crash :=
  c10_absent_name_panics worldNull wmEmpty "never" rfl

end AtomOS
